import Mathlib

/-!
# A verification of the `flatvec` container

Shallow embedding of `src/src/lib.rs` (crate `flatvec`). The container
`FlatVec<T, IndexTy, BackingTy, N>` is modelled as a structure over a generic
backing element type `α` (with `default` playing the role of
`BackingTy::default()`):

* `data`     — the `Box<[BackingTy]>` backing buffer. Its *length* is the
               buffer capacity (`data_capacity`), exactly as in Rust where the
               boxed slice's length is the allocated size.
* `data_len` — the fill length (`data_len` field / the spec's `fill_length`).
* `ends`     — the offset table (`ends: TinyVec<[IndexTy; N]>`), modelled as a
               list of `Nat` (offset values; the `IndexTy` conversion of `push`
               is modelled separately by `pushChecked`).

`usize` arithmetic is modelled by `Nat`. The `Storage` handle of the crate is
the pair `(data, data_len)`; its operations `reserve`, `allocate_slow_path`,
`allocate` and `extend` are translated directly. A `Flatten` implementation
(`IntoFlat`) is an arbitrary finite sequence of `Storage` operations
(`WriteOp`): `alloc xs` is `allocate(xs.len())` followed by the caller writing
`xs` into the returned slice (writing nothing leaves the slice's prior
contents, which `alloc` covers by letting `xs` be those contents), and
`ext exact xs` is `extend` over an iterator that yields `xs`, with `exact`
recording whether its size hint was exact (`hint.0 == hint.1`).
-/

namespace FlatVecModel

/-- The `FlatVec` container of `src/src/lib.rs`: backing buffer (length =
capacity), fill length, and offset table. -/
structure FV (α : Type) where
  data : List α
  data_len : Nat
  ends : List Nat
deriving Repr, DecidableEq

/-- The `Storage<'_, BackingTy>` handle: a view of `(data, data_len)`. -/
structure Store (α : Type) where
  data : List α
  data_len : Nat
deriving Repr, DecidableEq

variable {α : Type} [Inhabited α]

/-- `FlatVec::default()` / `FlatVec::new()`: empty buffer, zero fill, no ends. -/
def empty : FV α := ⟨[], 0, []⟩

/-- The `Storage` handle `push` opens over the container's buffer and fill. -/
def toStore (s : FV α) : Store α := ⟨s.data, s.data_len⟩

/-- `Vec::resize_with(new_len, default)`: truncate to `newLen` or extend with
`default` up to `newLen`. -/
def resizeWith (xs : List α) (newLen : Nat) : List α :=
  xs.take newLen ++ List.replicate (newLen - xs.length) default

/-- `Storage::allocate_slow_path` (lib.rs:227-234): take the buffer as a `Vec`
(whose length is the old capacity) and `resize_with` it to
`max(requested + data.len(), 2 * data.len())`, filling with `default`. -/
def allocate_slow_path (s : Store α) (requested : Nat) : Store α :=
  { s with data := resizeWith s.data (max (requested + s.data.length) (2 * s.data.length)) }

/-- `Storage::reserve` (lib.rs:254-258): grow through the slow path exactly
when `data.len() < data_len + requested`. -/
def reserve (s : Store α) (requested : Nat) : Store α :=
  if s.data.length < s.data_len + requested then allocate_slow_path s requested else s

/-- Overwrite `data[start .. start + xs.length)` with `xs` (what a caller does
with the mutable slice returned by `allocate`). -/
def setRange (data : List α) (start : Nat) (xs : List α) : List α :=
  data.take start ++ xs ++ data.drop (start + xs.length)

/-- `Storage::allocate` (lib.rs:245-250): reserve, advance `data_len`; the
returned slice is `data[old_len .. old_len + requested)`. -/
def allocate (s : Store α) (requested : Nat) : Store α :=
  let s1 := reserve s requested
  { s1 with data_len := s1.data_len + requested }

/-- `allocate(xs.len())` together with the caller writing `xs` through the
returned mutable slice (e.g. `IntoFlat<u8, String> for &str`, lib.rs:321-325). -/
def allocWrite (s : Store α) (xs : List α) : Store α :=
  let s1 := allocate s xs.length
  { s1 with data := setRange s1.data s.data_len xs }

/-- A Rust `Vec` mid-grow-loop: contents plus its current allocated capacity.
`into_vec()` of a boxed slice yields `capacity == length`. -/
structure RVec (α : Type) where
  contents : List α
  cap : Nat
deriving Repr, DecidableEq

/-- `Vec::push`: append; when full, the allocation grows (Rust's amortized
doubling is modelled as `max (2 * cap) (len + 1)`; only `cap ≥ len + 1`
matters to the container's behaviour, the contents never depend on it). -/
def vecPush (v : RVec α) (x : α) : RVec α :=
  if v.contents.length < v.cap then { v with contents := v.contents ++ [x] }
  else { contents := v.contents ++ [x], cap := max (2 * v.cap) (v.contents.length + 1) }

/-- The append-and-grow loop of `Storage::extend` (lib.rs:289-298): push each
remaining element, incrementing `data_len` each time. -/
def growLoop (v : RVec α) (dl : Nat) (xs : List α) : RVec α × Nat :=
  match xs with
  | [] => (v, dl)
  | x :: rest => growLoop (vecPush v x) (dl + 1) rest

/-- The non-exact-size-hint path of `Storage::extend` (lib.rs:282-305): fill
the already-allocated tail in place, then, if elements remain, append through
the grow loop and re-pad leftover capacity with `default`. -/
def extendNonExact (s : Store α) (xs : List α) : Store α :=
  let room := s.data.length - s.data_len
  let k := min room xs.length
  let s1 : Store α := ⟨setRange s.data s.data_len (xs.take k), s.data_len + k⟩
  match xs.drop k with
  | [] => s1
  | x :: rest =>
    let (v, dl) := growLoop (vecPush ⟨s1.data, s1.data.length⟩ x) (s1.data_len + 1) rest
    let final := if v.contents.length < v.cap
      then v.contents ++ List.replicate (v.cap - v.contents.length) default
      else v.contents
    ⟨final, dl⟩

/-- `Storage::extend` (lib.rs:265-306) over an honest iterator yielding `xs`;
`exact` is whether `size_hint` was exact (`Some(hint.0) == hint.1`), in which
case the elements go through a single `allocate` of `hint.0 = xs.length`. -/
def extend (s : Store α) (exact : Bool) (xs : List α) : Store α :=
  if exact then allocWrite s xs else extendNonExact s xs

/-- One `Storage` operation performed by an `IntoFlat` implementation. -/
inductive WriteOp (α : Type) where
  | alloc (xs : List α)
  | ext (exact : Bool) (xs : List α)
deriving Repr, DecidableEq

/-- Run one `Storage` operation. -/
def applyOp (s : Store α) : WriteOp α → Store α
  | .alloc xs => allocWrite s xs
  | .ext e xs => extend s e xs

/-- Run an `IntoFlat` implementation: a sequence of `Storage` operations. -/
def runOps (s : Store α) (ops : List (WriteOp α)) : Store α :=
  ops.foldl applyOp s

/-- `FlatVec::push` (lib.rs:135-144): run the flattener through a `Storage`
handle, then append the resulting `data_len` to `ends`. -/
def push (s : FV α) (ops : List (WriteOp α)) : FV α :=
  let st := runOps (toStore s) ops
  ⟨st.data, st.data_len, s.ends ++ [st.data_len]⟩

/-- `push` of one record given by its flattened units, as
`IntoFlat<u8, String> for &str` does (a single `allocate` + copy). -/
def pushRecord (s : FV α) (xs : List α) : FV α :=
  push s [WriteOp.alloc xs]

/-- `FlatVec::clear` (lib.rs:128-131): reset fill length and offsets; the
buffer (capacity and contents) is untouched. -/
def clear (s : FV α) : FV α :=
  { s with data_len := 0, ends := [] }

/-- `FlatVec::len` (lib.rs:102-104). -/
def len (s : FV α) : Nat := s.ends.length

/-- `FlatVec::data_len` (lib.rs:110-112). -/
def dataLen (s : FV α) : Nat := s.data_len

/-- `FlatVec::data_capacity` (lib.rs:116-118). -/
def dataCapacity (s : FV α) : Nat := s.data.length

/-- `FlatVec::is_empty` (lib.rs:123-125). -/
def isEmpty (s : FV α) : Bool := s.ends.length == 0

/-- Record `index`'s exclusive end: `ends[index]` (in-range callers only). -/
def endOf (s : FV α) (index : Nat) : Nat := s.ends.getD index 0

/-- Record `index`'s inclusive start: `0` for `index = 0`, else
`ends[index - 1]` (lib.rs:157-161, 194-198). -/
def startOf (s : FV α) (index : Nat) : Nat :=
  if index = 0 then 0 else s.ends.getD (index - 1) 0

/-- The slice `&data[start..end]` (valid for `start ≤ end ≤ data.length`,
which holds for every reachable container; see `c8_get`). -/
def sliceRange (data : List α) (start stop : Nat) : List α :=
  (data.drop start).take (stop - start)

/-- `FlatVec::get` (lib.rs:149-164): `None` iff `index ≥ ends.len()`, else the
record's byte range (handed to `FromFlat`; the built-in
`FromFlat<'a, BackingTy, Vec<BackingTy>> for &'a [BackingTy]` is the
identity, lib.rs:346-351). Takes `&self`: modelled as a pure function. -/
def getRecord (s : FV α) (index : Nat) : Option (List α) :=
  if index < s.ends.length then
    some (sliceRange s.data (startOf s index) (endOf s index))
  else none

/-- `FlatVec::iter` (lib.rs:168-176): zip `0 :: ends` with `ends` and slice
each adjacent pair. -/
def iterRecords (s : FV α) : List (List α) :=
  (List.zip (0 :: s.ends) s.ends).map fun p => sliceRange s.data p.1 p.2

/-- `slice::copy_within(src.., start)`: copy `data[src..]` to positions
starting at `start` (`start ≤ src` in every call site, lib.rs:199). -/
def copyWithin (data : List α) (src start : Nat) : List α :=
  data.take start ++ data.drop src ++ data.drop (start + (data.length - src))

/-- `FlatVec::remove` (lib.rs:192-207): shift the bytes after the removed
range left, erase the offset entry, reduce `data_len`, and decrement every
subsequent offset by the removed length. -/
def removeOp (s : FV α) (index : Nat) : FV α :=
  let en := endOf s index
  let st := startOf s index
  let removed := en - st
  let erased := s.ends.eraseIdx index
  ⟨copyWithin s.data en st,
   s.data_len - removed,
   erased.take index ++ (erased.drop index).map fun e => e - removed⟩

/-- The sum `Σ (end - start)` over the current records. -/
def recordLens (s : FV α) : List Nat :=
  (List.zip (0 :: s.ends) s.ends).map fun p => p.2 - p.1

/-- The container invariant maintained by every public operation: offsets are
non-decreasing, the last offset (0 when empty) equals the fill length, every
offset is within the filled region, and the fill length is within capacity. -/
def Inv (s : FV α) : Prop :=
  s.ends.Chain' (· ≤ ·) ∧ s.ends.getLastD 0 = s.data_len ∧
    (∀ e ∈ s.ends, e ≤ s.data_len) ∧ s.data_len ≤ s.data.length

/-- Executable check that the offset table is non-decreasing (used only to
give `Inv` a kernel-reducible decidability instance). -/
def endsSorted : List Nat → Bool
  | [] => true
  | [_] => true
  | a :: b :: rest => a ≤ b && endsSorted (b :: rest)

theorem endsSorted_iff : ∀ {l : List Nat}, endsSorted l = true ↔ l.Chain' (· ≤ ·) := by
  intro l
  induction l with
  | nil => simp [endsSorted]
  | cons a rest ih =>
    cases rest with
    | nil => simp [endsSorted]
    | cons b bs =>
      rw [List.chain'_cons, ← ih]
      simp [endsSorted]

instance (s : FV α) : Decidable (Inv s) :=
  decidable_of_iff (endsSorted s.ends = true ∧ s.ends.getLastD 0 = s.data_len ∧
    (∀ e ∈ s.ends, e ≤ s.data_len) ∧ s.data_len ≤ s.data.length)
    (by unfold Inv; exact and_congr endsSorted_iff Iff.rfl)

/-- A public mutating operation on the container. -/
inductive Op (α : Type) where
  | push (ops : List (WriteOp α))
  | remove (i : Nat)
  | clear
deriving Repr

/-- One public operation; `remove` with an out-of-range index panics in Rust
(`self.ends[index]`), modelled as `none`. -/
def step (s : FV α) : Op α → Option (FV α)
  | .push ops => some (push s ops)
  | .remove i => if i < s.ends.length then some (removeOp s i) else none
  | .clear => some (clear s)

/-- Run a sequence of public operations from a starting state. -/
def runFrom (s : FV α) : List (Op α) → Option (FV α)
  | [] => some s
  | o :: rest =>
    match step s o with
    | some s1 => runFrom s1 rest
    | none => none

/-- The states reachable from the empty container. -/
def run (ops : List (Op α)) : Option (FV α) := runFrom empty ops

/-- The units an `IntoFlat` operation writes into the buffer. -/
def opUnits : WriteOp α → List α
  | .alloc xs => xs
  | .ext _ xs => xs

/-- `pop::<Dest>()`. Modelled from the spec: `pop` is described in the spec
(§4.1) but absent from `src/src/lib.rs`. Per the spec it materializes the
last record, removes the last offset and truncates the buffer to the new
tail; truncation is modelled as resetting the fill length to the new tail
and default-filling the vacated units, as the spec's default-initialized
capacity invariant (§3, §9) demands of every unit beyond the fill length. -/
def pop (s : FV α) : Option (List α) × FV α :=
  if s.ends.length = 0 then (none, s)
  else
    let idx := s.ends.length - 1
    let st := startOf s idx
    let en := endOf s idx
    (some (sliceRange s.data st en),
     ⟨setRange s.data st (List.replicate (en - st) default), st, s.ends.dropLast⟩)

/-- `IndexTy::try_from(v)` for an index type whose maximum value is
`idxMax` (e.g. `u8` has `idxMax = 255`, `usize` has `idxMax = 2^64 - 1`):
fails exactly when the value does not fit. -/
def tryIntoIdx (idxMax v : Nat) : Option Nat :=
  if v ≤ idxMax then some v else none

/-- `FlatVec::push` with the `IndexTy` conversion made explicit
(`self.ends.push(self.data_len.try_into().unwrap())`, lib.rs:143): `none`
models the `unwrap` panic. -/
def pushChecked (idxMax : Nat) (s : FV α) (ops : List (WriteOp α)) : Option (FV α) :=
  let st := runOps (toStore s) ops
  match tryIntoIdx idxMax st.data_len with
  | some e => some ⟨st.data, st.data_len, s.ends ++ [e]⟩
  | none => none

/-! ## Basic lemmas about the buffer primitives -/

theorem resizeWith_length (xs : List α) (n : Nat) : (resizeWith xs n).length = n := by
  simp [resizeWith]
  omega

theorem resizeWith_eq_append {xs : List α} {n : Nat} (h : xs.length ≤ n) :
    resizeWith xs n = xs ++ List.replicate (n - xs.length) default := by
  simp [resizeWith, List.take_of_length_le h]

theorem sliceRange_eq (l : List α) (a b : Nat) : sliceRange l a b = (l.take b).drop a := by
  simp [sliceRange, List.drop_take]

theorem sliceRange_congr {l₁ l₂ : List α} {c : Nat} (h : l₁.take c = l₂.take c)
    {a b : Nat} (hb : b ≤ c) : sliceRange l₁ a b = sliceRange l₂ a b := by
  rw [sliceRange_eq, sliceRange_eq]
  have h1 : l₁.take b = l₂.take b := by
    have h2 := congrArg (List.take b) h
    simpa [List.take_take, Nat.min_eq_left hb] using h2
  rw [h1]

theorem sliceRange_length {l : List α} {a b : Nat} (hab : a ≤ b) (hb : b ≤ l.length) :
    (sliceRange l a b).length = b - a := by
  simp [sliceRange]
  omega

theorem setRange_length {data : List α} {start : Nat} {xs : List α}
    (h : start + xs.length ≤ data.length) : (setRange data start xs).length = data.length := by
  simp [setRange]
  omega

theorem setRange_take {data : List α} {start : Nat} (xs : List α) (h : start ≤ data.length) :
    (setRange data start xs).take start = data.take start := by
  unfold setRange
  rw [List.take_append_of_le_length (by simp; omega),
    List.take_append_of_le_length (by simp; omega), List.take_take]
  simp

theorem setRange_slice {data : List α} {start : Nat} (xs : List α) (h : start ≤ data.length) :
    sliceRange (setRange data start xs) start (start + xs.length) = xs := by
  unfold setRange sliceRange
  rw [show start + xs.length - start = xs.length by omega,
    List.drop_append_of_le_length (by simp; omega),
    List.drop_append_of_le_length (by simp; omega),
    List.drop_eq_nil_of_le (by simp), List.nil_append,
    List.take_append_of_le_length (le_refl _)]
  simp

/-! ## Lemmas about `reserve`, `allocate` and writes through `allocate` -/

theorem reserve_data_len (s : Store α) (n : Nat) : (reserve s n).data_len = s.data_len := by
  unfold reserve allocate_slow_path
  split <;> rfl

theorem reserve_eq_append (s : Store α) (n : Nat) :
    ∃ m, (reserve s n).data = s.data ++ List.replicate m default := by
  unfold reserve allocate_slow_path
  split
  · exact ⟨_, resizeWith_eq_append (by omega)⟩
  · exact ⟨0, by simp⟩

theorem reserve_length (s : Store α) (n : Nat) : s.data.length ≤ (reserve s n).data.length := by
  obtain ⟨m, hm⟩ := reserve_eq_append s n
  simp [hm]

theorem reserve_capacity (s : Store α) (n : Nat) (h : s.data_len ≤ s.data.length) :
    s.data_len + n ≤ (reserve s n).data.length := by
  unfold reserve allocate_slow_path
  split
  · rw [resizeWith_length]; omega
  · omega

theorem reserve_take (s : Store α) (n c : Nat) (hc : c ≤ s.data.length) :
    (reserve s n).data.take c = s.data.take c := by
  obtain ⟨m, hm⟩ := reserve_eq_append s n
  rw [hm, List.take_append_of_le_length hc]

theorem allocWrite_def (s : Store α) (xs : List α) :
    allocWrite s xs =
      ⟨setRange (reserve s xs.length).data s.data_len xs, s.data_len + xs.length⟩ := by
  unfold allocWrite allocate
  simp only []
  rw [reserve_data_len]

theorem allocWrite_data_len (s : Store α) (xs : List α) :
    (allocWrite s xs).data_len = s.data_len + xs.length := by
  rw [allocWrite_def]

theorem allocWrite_length (s : Store α) (xs : List α) (h : s.data_len ≤ s.data.length) :
    (allocWrite s xs).data.length = (reserve s xs.length).data.length := by
  rw [allocWrite_def]
  exact setRange_length (reserve_capacity s xs.length h)

theorem allocWrite_capacity (s : Store α) (xs : List α) (h : s.data_len ≤ s.data.length) :
    (allocWrite s xs).data_len ≤ (allocWrite s xs).data.length := by
  rw [allocWrite_length s xs h, allocWrite_data_len]
  exact reserve_capacity s xs.length h

theorem allocWrite_take (s : Store α) (xs : List α) (h : s.data_len ≤ s.data.length) :
    (allocWrite s xs).data.take s.data_len = s.data.take s.data_len := by
  rw [allocWrite_def]
  have h1 : s.data_len ≤ (reserve s xs.length).data.length :=
    le_trans h (reserve_length s xs.length)
  rw [setRange_take xs h1, reserve_take s xs.length s.data_len h]

theorem allocWrite_slice (s : Store α) (xs : List α) (h : s.data_len ≤ s.data.length) :
    sliceRange (allocWrite s xs).data s.data_len (s.data_len + xs.length) = xs := by
  rw [allocWrite_def]
  exact setRange_slice xs (le_trans h (reserve_length s xs.length))

/-! ## Lemmas about `extend` -/

theorem vecPush_contents (v : RVec α) (x : α) : (vecPush v x).contents = v.contents ++ [x] := by
  unfold vecPush
  split <;> rfl

theorem growLoop_spec (xs : List α) : ∀ (v : RVec α) (dl : Nat),
    (growLoop v dl xs).1.contents = v.contents ++ xs ∧ (growLoop v dl xs).2 = dl + xs.length := by
  induction xs with
  | nil => intro v dl; simp [growLoop]
  | cons x rest ih =>
    intro v dl
    have h := ih (vecPush v x) (dl + 1)
    simp only [growLoop, h.1, h.2, vecPush_contents]
    constructor
    · simp
    · simp; omega

/-- The two shapes `extend`'s non-exact path can take: everything fits in the
already-allocated tail, or the append-and-grow loop runs and the result is the
old filled prefix, then all the iterator's elements, then default padding. -/
theorem extendNonExact_cases (s : Store α) (xs : List α) (h : s.data_len ≤ s.data.length) :
    (xs.length ≤ s.data.length - s.data_len ∧
       extendNonExact s xs = ⟨setRange s.data s.data_len xs, s.data_len + xs.length⟩) ∨
    (s.data.length - s.data_len < xs.length ∧ ∃ pad,
       extendNonExact s xs =
         ⟨s.data.take s.data_len ++ xs ++ List.replicate pad default,
          s.data_len + xs.length⟩) := by
  by_cases hov : xs.length ≤ s.data.length - s.data_len
  · left
    refine ⟨hov, ?_⟩
    unfold extendNonExact
    simp only [Nat.min_eq_right hov, List.take_length, List.drop_length]
  · right
    push_neg at hov
    refine ⟨hov, ?_⟩
    have hk : min (s.data.length - s.data_len) xs.length = s.data.length - s.data_len :=
      Nat.min_eq_left (le_of_lt hov)
    obtain ⟨y, ys, hxr⟩ : ∃ y ys, xs.drop (s.data.length - s.data_len) = y :: ys := by
      cases hcase : xs.drop (s.data.length - s.data_len) with
      | nil =>
        exfalso
        have hc := congrArg List.length hcase
        simp at hc
        omega
      | cons y ys => exact ⟨y, ys, rfl⟩
    have hs1 : setRange s.data s.data_len (xs.take (s.data.length - s.data_len)) =
        s.data.take s.data_len ++ xs.take (s.data.length - s.data_len) := by
      unfold setRange
      rw [show s.data_len + (xs.take (s.data.length - s.data_len)).length = s.data.length by
            simp; omega,
        List.drop_length, List.append_nil]
    unfold extendNonExact
    simp only [hk, hxr, hs1]
    rcases hg : growLoop (vecPush
        ⟨s.data.take s.data_len ++ xs.take (s.data.length - s.data_len),
         (s.data.take s.data_len ++ xs.take (s.data.length - s.data_len)).length⟩ y)
        (s.data_len + (s.data.length - s.data_len) + 1) ys with ⟨v, dl⟩
    have hspec := growLoop_spec ys (vecPush
        ⟨s.data.take s.data_len ++ xs.take (s.data.length - s.data_len),
         (s.data.take s.data_len ++ xs.take (s.data.length - s.data_len)).length⟩ y)
        (s.data_len + (s.data.length - s.data_len) + 1)
    rw [hg] at hspec
    obtain ⟨hspec1, hspec2⟩ := hspec
    have hspec1' : v.contents = _ := hspec1
    have hspec2' : dl = _ := hspec2
    have hyslen : (y :: ys).length = xs.length - (s.data.length - s.data_len) := by
      rw [← hxr]; simp
    have hcont : v.contents = s.data.take s.data_len ++ xs := by
      rw [hspec1', vecPush_contents]
      simp only [List.append_assoc]
      rw [show [y] ++ ys = xs.drop (s.data.length - s.data_len) from hxr.symm,
        List.take_append_drop]
    have hdl : dl = s.data_len + xs.length := by
      rw [hspec2']
      simp at hyslen
      omega
    by_cases hpad : v.contents.length < v.cap
    · simp only [if_pos hpad]
      exact ⟨v.cap - v.contents.length, by rw [hcont, hdl, List.append_assoc]⟩
    · simp only [if_neg hpad]
      exact ⟨0, by rw [hcont, hdl]; simp⟩

theorem take_of_front_append {A rest : List α} {c : Nat} (hc : c ≤ A.length) :
    (A ++ rest).take c = A.take c := List.take_append_of_le_length hc

theorem extend_facts (s : Store α) (e : Bool) (xs : List α) (h : s.data_len ≤ s.data.length) :
    (extend s e xs).data_len = s.data_len + xs.length ∧
    (extend s e xs).data_len ≤ (extend s e xs).data.length ∧
    (extend s e xs).data.take s.data_len = s.data.take s.data_len ∧
    sliceRange (extend s e xs).data s.data_len (s.data_len + xs.length) = xs := by
  cases e with
  | true =>
    have hx : extend s true xs = allocWrite s xs := rfl
    rw [hx]
    exact ⟨allocWrite_data_len s xs, allocWrite_capacity s xs h,
      allocWrite_take s xs h, allocWrite_slice s xs h⟩
  | false =>
    have hx : extend s false xs = extendNonExact s xs := rfl
    rw [hx]
    rcases extendNonExact_cases s xs h with ⟨hfit, heq⟩ | ⟨hov, pad, heq⟩
    · rw [heq]
      have hcap : s.data_len + xs.length ≤ s.data.length := by omega
      exact ⟨rfl, by rw [setRange_length hcap]; exact hcap, setRange_take xs h, setRange_slice xs h⟩
    · rw [heq]
      have hA : (s.data.take s.data_len).length = s.data_len := by simp; omega
      refine ⟨rfl, by simp; omega, ?_, ?_⟩
      · rw [take_of_front_append (by simp; omega), take_of_front_append (by omega),
          List.take_take]
        simp
      · unfold sliceRange
        rw [show s.data_len + xs.length - s.data_len = xs.length by omega,
          List.drop_append_of_le_length (by simp; omega),
          List.drop_append_of_le_length (by omega),
          List.drop_eq_nil_of_le (by omega), List.nil_append,
          List.take_append_of_le_length (le_refl _), List.take_length]

/-- In the append-and-grow case, everything beyond the new fill length is the
`resize_with` re-padding: all `default`. -/
theorem extend_grow_padding (s : Store α) (xs : List α) (h : s.data_len ≤ s.data.length)
    (hov : s.data.length < s.data_len + xs.length) :
    (extendNonExact s xs).data.drop (extendNonExact s xs).data_len =
      List.replicate ((extendNonExact s xs).data.length - (extendNonExact s xs).data_len)
        default := by
  rcases extendNonExact_cases s xs h with ⟨hfit, _⟩ | ⟨_, pad, heq⟩
  · omega
  · rw [heq]
    have hA : (s.data.take s.data_len ++ xs).length = s.data_len + xs.length := by
      simp; omega
    have hd : (s.data.take s.data_len ++ xs ++ List.replicate pad default).drop
        (s.data_len + xs.length) = List.replicate pad default := by
      rw [← hA]
      exact List.drop_left _ _
    simp only [hd]
    congr 1
    simp
    omega

theorem applyOp_facts (s : Store α) (op : WriteOp α) (h : s.data_len ≤ s.data.length) :
    (applyOp s op).data_len = s.data_len + (opUnits op).length ∧
    (applyOp s op).data_len ≤ (applyOp s op).data.length ∧
    (applyOp s op).data.take s.data_len = s.data.take s.data_len ∧
    sliceRange (applyOp s op).data s.data_len
      (s.data_len + (opUnits op).length) = opUnits op := by
  cases op with
  | alloc xs =>
    exact ⟨allocWrite_data_len s xs, allocWrite_capacity s xs h,
      allocWrite_take s xs h, allocWrite_slice s xs h⟩
  | ext e xs => exact extend_facts s e xs h

theorem runOps_facts (ops : List (WriteOp α)) : ∀ s : Store α,
    s.data_len ≤ s.data.length →
    s.data_len ≤ (runOps s ops).data_len ∧
    (runOps s ops).data_len ≤ (runOps s ops).data.length ∧
    (runOps s ops).data.take s.data_len = s.data.take s.data_len := by
  induction ops with
  | nil => intro s h; exact ⟨le_refl _, h, rfl⟩
  | cons op rest ih =>
    intro s h
    have h1 := applyOp_facts s op h
    have h2 := ih (applyOp s op) h1.2.1
    refine ⟨le_trans (by omega) h2.1, h2.2.1, ?_⟩
    show (runOps (applyOp s op) rest).data.take s.data_len = _
    have hmono : s.data_len ≤ (applyOp s op).data_len := by omega
    calc (runOps (applyOp s op) rest).data.take s.data_len
        = ((runOps (applyOp s op) rest).data.take (applyOp s op).data_len).take
            s.data_len := by rw [List.take_take, Nat.min_eq_left hmono]
      _ = ((applyOp s op).data.take (applyOp s op).data_len).take s.data_len := by
            rw [h2.2.2]
      _ = (applyOp s op).data.take s.data_len := by
            rw [List.take_take, Nat.min_eq_left hmono]
      _ = s.data.take s.data_len := h1.2.2.1

/-! ## The container invariant is maintained by `push`, `remove` and `clear` -/

theorem getLastD_eq_getD (l : List Nat) (d : Nat) : l.getLastD d = l.getD (l.length - 1) d := by
  rw [List.getLastD_eq_getLast?, List.getLast?_eq_getElem?, List.getD_eq_getElem?_getD]

theorem getD_append_last (l : List Nat) (x d : Nat) : (l ++ [x]).getD l.length d = x := by
  rw [List.getD_eq_getElem _ _ (by simp), List.getElem_append_right (le_refl _)]
  simp

theorem inv_mono {s : FV α} (h : Inv s) {i j : Nat} (hij : i ≤ j) (hj : j < s.ends.length) :
    s.ends.getD i 0 ≤ s.ends.getD j 0 := by
  rcases Nat.lt_or_ge i j with hlt | hge
  · have hp := List.pairwise_iff_getElem.mp (List.chain'_iff_pairwise.mp h.1)
    rw [List.getD_eq_getElem _ _ (by omega), List.getD_eq_getElem _ _ hj]
    exact hp i j (by omega) hj hlt
  · have hij2 : i = j := by omega
    rw [hij2]

theorem inv_end_le {s : FV α} (h : Inv s) {j : Nat} (hj : j < s.ends.length) :
    s.ends.getD j 0 ≤ s.data_len := by
  apply h.2.2.1
  rw [List.getD_eq_getElem _ _ hj]
  exact List.getElem_mem hj

theorem inv_last {s : FV α} (h : Inv s) :
    s.ends.getD (s.ends.length - 1) 0 = s.data_len := by
  rw [← getLastD_eq_getD]
  exact h.2.1

theorem inv_start_le_end {s : FV α} (h : Inv s) {i : Nat} (hi : i < s.ends.length) :
    startOf s i ≤ endOf s i := by
  unfold startOf endOf
  split
  · exact Nat.zero_le _
  · exact inv_mono h (by omega) hi

theorem inv_end_in_fill {s : FV α} (h : Inv s) {i : Nat} (hi : i < s.ends.length) :
    endOf s i ≤ s.data_len := inv_end_le h hi

theorem inv_empty : Inv (empty : FV α) := by
  refine ⟨List.chain'_nil, rfl, ?_, le_refl _⟩
  intro e he
  simp [empty] at he

theorem push_facts {s : FV α} (h : Inv s) (ops : List (WriteOp α)) :
    Inv (push s ops) ∧ (push s ops).ends = s.ends ++ [(push s ops).data_len] ∧
    s.data_len ≤ (push s ops).data_len ∧
    (push s ops).data.take s.data_len = s.data.take s.data_len := by
  have rf := runOps_facts ops (toStore s) h.2.2.2
  have hends : (push s ops).ends = s.ends ++ [(runOps (toStore s) ops).data_len] := rfl
  have hdl : (push s ops).data_len = (runOps (toStore s) ops).data_len := rfl
  have hdata : (push s ops).data = (runOps (toStore s) ops).data := rfl
  have hmono : s.data_len ≤ (push s ops).data_len := rf.1
  refine ⟨⟨?_, ?_, ?_, ?_⟩, hends, hmono, rf.2.2⟩
  · rw [hends, List.chain'_iff_pairwise, List.pairwise_append]
    refine ⟨List.chain'_iff_pairwise.mp h.1, List.pairwise_singleton _ _, ?_⟩
    intro a ha b hb
    rw [List.mem_singleton] at hb
    subst hb
    exact le_trans (h.2.2.1 a ha) hmono
  · rw [hends, getLastD_eq_getD]
    simp only [List.length_append, List.length_singleton]
    rw [show s.ends.length + 1 - 1 = s.ends.length by omega, getD_append_last]
    rfl
  · intro e he
    rw [hends, List.mem_append] at he
    rcases he with he | he
    · exact le_trans (h.2.2.1 e he) hmono
    · rw [List.mem_singleton] at he
      subst he
      exact le_refl _
  · exact rf.2.1

theorem clear_Inv (s : FV α) : Inv (clear s) := by
  refine ⟨List.chain'_nil, rfl, ?_, Nat.zero_le _⟩
  intro e he
  simp [clear] at he

theorem copyWithin_length {data : List α} {src start : Nat} (h1 : start ≤ src)
    (h2 : src ≤ data.length) : (copyWithin data src start).length = data.length := by
  simp [copyWithin]
  omega

theorem removeOp_ends (s : FV α) {i : Nat} (hi : i < s.ends.length) :
    (removeOp s i).ends =
      s.ends.take i ++
        (s.ends.drop (i+1)).map fun e => e - (endOf s i - startOf s i) := by
  show (s.ends.eraseIdx i).take i ++ ((s.ends.eraseIdx i).drop i).map _ = _
  rw [List.eraseIdx_eq_take_drop_succ]
  congr 1
  · rw [List.take_append_of_le_length (by simp; omega), List.take_take]
    simp
  · congr 1
    rw [List.drop_append_of_le_length (by simp; omega),
      List.drop_eq_nil_of_le (by simp), List.nil_append]

theorem removeOp_ends_length (s : FV α) {i : Nat} (hi : i < s.ends.length) :
    (removeOp s i).ends.length = s.ends.length - 1 := by
  rw [removeOp_ends s hi]
  simp
  omega

theorem removeOp_ends_getD_lt (s : FV α) {i j : Nat} (hi : i < s.ends.length) (hj : j < i) :
    (removeOp s i).ends.getD j 0 = s.ends.getD j 0 := by
  rw [removeOp_ends s hi,
    List.getD_eq_getElem _ _ (by simp; omega), List.getD_eq_getElem _ _ (by omega),
    List.getElem_append_left (by simp; omega)]
  exact List.getElem_take _

theorem removeOp_ends_getD_ge (s : FV α) {i j : Nat} (hij : i ≤ j)
    (hj : j < s.ends.length - 1) :
    (removeOp s i).ends.getD j 0 =
      s.ends.getD (j+1) 0 - (endOf s i - startOf s i) := by
  have hi : i < s.ends.length := by omega
  rw [removeOp_ends s hi,
    List.getD_eq_getElem _ _ (by simp; omega), List.getD_eq_getElem _ _ (by omega),
    List.getElem_append_right (by simp; omega)]
  simp only [List.getElem_map, List.getElem_drop, List.length_take]
  have hidx : i + 1 + (j - min i s.ends.length) = j + 1 := by omega
  simp only [hidx]

theorem startOf_pos {s : FV α} {i : Nat} (hpos : 0 < i) :
    startOf s i = s.ends.getD (i-1) 0 := by
  unfold startOf
  rw [if_neg (by omega)]

theorem remove_Inv {s : FV α} (h : Inv s) {i : Nat} (hi : i < s.ends.length) :
    Inv (removeOp s i) := by
  have hse : startOf s i ≤ endOf s i := inv_start_le_end h hi
  have hed : endOf s i ≤ s.data_len := inv_end_le h hi
  have hEl : (removeOp s i).ends.length = s.ends.length - 1 := removeOp_ends_length s hi
  have hdl : (removeOp s i).data_len = s.data_len - (endOf s i - startOf s i) := rfl
  have hmono : ∀ a b, a ≤ b → b < s.ends.length - 1 →
      (removeOp s i).ends.getD a 0 ≤ (removeOp s i).ends.getD b 0 := by
    intro a b hab hb
    rcases Nat.lt_or_ge b i with hbi | hbi
    · rw [removeOp_ends_getD_lt s hi (by omega), removeOp_ends_getD_lt s hi hbi]
      exact inv_mono h hab (by omega)
    · rcases Nat.lt_or_ge a i with hai | hai
      · rw [removeOp_ends_getD_lt s hi hai, removeOp_ends_getD_ge s hbi hb]
        have h1 : s.ends.getD a 0 ≤ s.ends.getD (i-1) 0 := inv_mono h (by omega) (by omega)
        have hst : startOf s i = s.ends.getD (i-1) 0 := startOf_pos (by omega)
        have h2 : endOf s i ≤ s.ends.getD (b+1) 0 := inv_mono h (by omega) (by omega)
        omega
      · rw [removeOp_ends_getD_ge s hai (by omega), removeOp_ends_getD_ge s hbi hb]
        have h2 : s.ends.getD (a+1) 0 ≤ s.ends.getD (b+1) 0 :=
          inv_mono h (by omega) (by omega)
        omega
  refine ⟨?_, ?_, ?_, ?_⟩
  · rw [List.chain'_iff_pairwise, List.pairwise_iff_getElem]
    intro a b ha hb hab
    rw [← List.getD_eq_getElem (removeOp s i).ends 0 ha,
      ← List.getD_eq_getElem (removeOp s i).ends 0 hb]
    exact hmono a b (by omega) (by omega)
  · rw [getLastD_eq_getD, hEl]
    rcases Nat.lt_or_ge s.ends.length 2 with hn | hn
    · have hi0 : i = 0 := by omega
      have hnil : (removeOp s i).ends = [] := List.eq_nil_of_length_eq_zero (by omega)
      rw [hnil]
      have hen : endOf s i = s.data_len := by
        show s.ends.getD i 0 = s.data_len
        have hieq : i = s.ends.length - 1 := by omega
        rw [hieq]
        exact inv_last h
      have hst : startOf s i = 0 := by rw [hi0]; rfl
      simp only [List.getD_nil, hdl]
      omega
    · rcases Nat.lt_or_ge i (s.ends.length - 1) with hilt | hige
      · rw [removeOp_ends_getD_ge s (by omega) (by omega), hdl,
          show s.ends.length - 1 - 1 + 1 = s.ends.length - 1 by omega, inv_last h]
      · have hieq : i = s.ends.length - 1 := by omega
        rw [removeOp_ends_getD_lt s hi (by omega), hdl]
        have hst : startOf s i = s.ends.getD (s.ends.length - 1 - 1) 0 := by
          rw [startOf_pos (by omega), hieq]
        have hen : endOf s i = s.data_len := by
          show s.ends.getD i 0 = s.data_len
          rw [hieq]
          exact inv_last h
        omega
  · intro e he
    rw [List.mem_iff_getElem] at he
    obtain ⟨j, hj, hje⟩ := he
    rw [← hje, ← List.getD_eq_getElem _ 0 hj, hdl]
    have hj' : j < s.ends.length - 1 := by omega
    rcases Nat.lt_or_ge j i with hji | hji
    · rw [removeOp_ends_getD_lt s hi hji]
      have h1 : s.ends.getD j 0 ≤ s.ends.getD (i-1) 0 := inv_mono h (by omega) (by omega)
      have hst : startOf s i = s.ends.getD (i-1) 0 := startOf_pos (by omega)
      omega
    · rw [removeOp_ends_getD_ge s hji hj']
      have h1 : s.ends.getD (j+1) 0 ≤ s.data_len := inv_end_le h (by omega)
      omega
  · rw [hdl]
    have hL : (removeOp s i).data.length = s.data.length := by
      show (copyWithin s.data (endOf s i) (startOf s i)).length = _
      exact copyWithin_length hse (le_trans hed h.2.2.2)
    rw [hL]
    have hcap := h.2.2.2
    omega

theorem step_Inv {s s' : FV α} (h : Inv s) {op : Op α} (hstep : step s op = some s') :
    Inv s' := by
  cases op with
  | push ops =>
    simp only [step] at hstep
    injection hstep with he
    rw [← he]
    exact (push_facts h ops).1
  | remove i =>
    simp only [step] at hstep
    split at hstep
    · injection hstep with he
      rw [← he]
      exact remove_Inv h (by assumption)
    · exact absurd hstep (by simp)
  | clear =>
    simp only [step] at hstep
    injection hstep with he
    rw [← he]
    exact clear_Inv s

theorem runFrom_Inv (ops : List (Op α)) : ∀ s s' : FV α, Inv s →
    runFrom s ops = some s' → Inv s' := by
  induction ops with
  | nil =>
    intro s s' h he
    unfold runFrom at he
    injection he with he
    rw [← he]
    exact h
  | cons o rest ih =>
    intro s s' h he
    unfold runFrom at he
    cases hst : step s o with
    | none => rw [hst] at he; exact absurd he (by simp)
    | some s1 => rw [hst] at he; exact ih s1 s' (step_Inv h hst) he

/-- Every state reachable from the empty container by `push`/`remove`/`clear`
satisfies the container invariant. -/
theorem run_Inv {ops : List (Op α)} {s : FV α} (h : run ops = some s) : Inv s :=
  runFrom_Inv ops empty s inv_empty h

/-! ## The telescoping sum of record lengths -/

theorem chain_le_getLastD : ∀ {x : Nat} {xs : List Nat},
    List.Chain (· ≤ ·) x xs → x ≤ xs.getLastD x := by
  intro x xs
  induction xs generalizing x with
  | nil => intro _; simp
  | cons y ys ih =>
    intro hch
    rw [List.chain_cons] at hch
    rw [List.getLastD_cons]
    exact le_trans hch.1 (ih hch.2)

theorem tele_sum (l : List Nat) : ∀ a : Nat, List.Chain (· ≤ ·) a l →
    ((List.zip (a :: l) l).map fun p => p.2 - p.1).sum = l.getLastD a - a := by
  induction l with
  | nil => intro a _; simp
  | cons x xs ih =>
    intro a hch
    rw [List.chain_cons] at hch
    have h1 := ih x hch.2
    have h2 : x ≤ xs.getLastD x := chain_le_getLastD hch.2
    simp only [List.zip_cons_cons, List.map_cons, List.sum_cons, List.getLastD_cons]
    rw [h1]
    omega

theorem chain_zero_of_inv {s : FV α} (h : Inv s) : List.Chain (· ≤ ·) 0 s.ends := by
  cases hE : s.ends with
  | nil => exact List.Chain.nil
  | cons x xs =>
    have h1 := h.1
    rw [hE] at h1
    exact List.Chain.cons (Nat.zero_le x) h1

theorem inv_sum {s : FV α} (h : Inv s) : (recordLens s).sum = s.data_len := by
  unfold recordLens
  rw [tele_sum s.ends 0 (chain_zero_of_inv h), h.2.1]
  omega


/-! ## Reading records back: `get` and `iter` -/

theorem getRecord_none_iff (s : FV α) (i : Nat) :
    getRecord s i = none ↔ s.ends.length ≤ i := by
  unfold getRecord
  split
  · simp
    omega
  · simp
    omega

theorem getRecord_some {s : FV α} {i : Nat} (hi : i < s.ends.length) :
    getRecord s i = some (sliceRange s.data (startOf s i) (endOf s i)) := by
  unfold getRecord
  rw [if_pos hi]

theorem runOps_single (s : Store α) (op : WriteOp α) : runOps s [op] = applyOp s op := rfl

theorem pushRecord_data_len {s : FV α} (h : Inv s) (xs : List α) :
    (pushRecord s xs).data_len = s.data_len + xs.length := by
  show (allocWrite (toStore s) xs).data_len = _
  exact allocWrite_data_len (toStore s) xs

theorem push_startOf_last {s : FV α} (h : Inv s) (ops : List (WriteOp α)) :
    startOf (push s ops) s.ends.length = s.data_len := by
  have hends := (push_facts h ops).2.1
  by_cases hz : s.ends.length = 0
  · have hnil : s.ends = [] := List.eq_nil_of_length_eq_zero hz
    have hdl : s.data_len = 0 := by
      have h2 := h.2.1
      rw [hnil] at h2
      exact h2.symm
    unfold startOf
    rw [hz, if_pos rfl, hdl]
  · rw [startOf_pos (by omega), hends,
      List.getD_append _ _ _ _ (by omega)]
    have hlast := inv_last h
    rw [show s.ends.length - 1 = s.ends.length - 1 from rfl] at hlast
    exact hlast

theorem push_endOf_last {s : FV α} (h : Inv s) (ops : List (WriteOp α)) :
    endOf (push s ops) s.ends.length = (push s ops).data_len := by
  have hends := (push_facts h ops).2.1
  show (push s ops).ends.getD s.ends.length 0 = _
  rw [hends, getD_append_last]

/-- Push-then-get-last round trip at the `Storage` level (the built-in
`&str`-style flattener writes `xs` through one `allocate`). -/
theorem pushRecord_get_last {s : FV α} (h : Inv s) (xs : List α) :
    getRecord (pushRecord s xs) s.ends.length = some xs := by
  unfold pushRecord
  have hlen : (push s [WriteOp.alloc xs]).ends.length = s.ends.length + 1 := by
    rw [(push_facts h _).2.1]
    simp
  rw [getRecord_some (by omega)]
  rw [push_startOf_last h _, push_endOf_last h _]
  rw [show (push s [WriteOp.alloc xs]).data_len = s.data_len + xs.length from
    allocWrite_data_len (toStore s) xs]
  congr 1
  show sliceRange (allocWrite (toStore s) xs).data s.data_len (s.data_len + xs.length) = xs
  exact allocWrite_slice (toStore s) xs h.2.2.2

theorem zip_snoc (x : Nat) : ∀ (l : List Nat) (a : Nat),
    List.zip (a :: (l ++ [x])) (l ++ [x]) = List.zip (a :: l) l ++ [(l.getLastD a, x)] := by
  intro l
  induction l with
  | nil => intro a; simp
  | cons b bs ih =>
    intro a
    simp only [List.cons_append, List.zip_cons_cons, ih b, List.getLastD_cons]

theorem iterRecords_push {s : FV α} (h : Inv s) (xs : List α) :
    iterRecords (pushRecord s xs) = iterRecords s ++ [xs] := by
  have hpf := push_facts h [WriteOp.alloc xs]
  have hends : (pushRecord s xs).ends = s.ends ++ [(pushRecord s xs).data_len] := hpf.2.1
  unfold iterRecords
  rw [hends, zip_snoc, List.map_append]
  congr 1
  · apply List.map_congr_left
    intro p hp
    have hmem := List.of_mem_zip hp
    exact sliceRange_congr hpf.2.2.2 (h.2.2.1 p.2 hmem.2)
  · simp only [List.map_cons, List.map_nil]
    rw [h.2.1]
    congr 1
    rw [pushRecord_data_len h xs]
    show sliceRange (allocWrite (toStore s) xs).data s.data_len (s.data_len + xs.length) = xs
    exact allocWrite_slice (toStore s) xs h.2.2.2

theorem iterRecords_empty : iterRecords (empty : FV α) = [] := rfl

theorem foldl_pushRecord_iter : ∀ (rs : List (List α)) (s : FV α), Inv s →
    iterRecords (List.foldl pushRecord s rs) = iterRecords s ++ rs ∧
      Inv (List.foldl pushRecord s rs) := by
  intro rs
  induction rs with
  | nil =>
    intro s h
    exact ⟨by simp, h⟩
  | cons r rest ih =>
    intro s h
    have h1 : Inv (pushRecord s r) := (push_facts h _).1
    have h2 := ih (pushRecord s r) h1
    simp only [List.foldl_cons]
    refine ⟨?_, h2.2⟩
    rw [h2.1, iterRecords_push h r]
    simp

/-! ## What `remove` does to the records -/

theorem copyWithin_take {data : List α} {src start : Nat} (h : start ≤ data.length) :
    (copyWithin data src start).take start = data.take start := by
  unfold copyWithin
  rw [List.take_append_of_le_length (by simp; omega),
    List.take_append_of_le_length (by simp; omega), List.take_take]
  simp

theorem copyWithin_getD_shift {data : List α} {src start p : Nat} (h1 : start ≤ src)
    (h2 : src ≤ data.length) (hp : start ≤ p) (hp2 : p + (src - start) < data.length) :
    (copyWithin data src start).getD p default = data.getD (p + (src - start)) default := by
  unfold copyWithin
  rw [List.getD_eq_getElem _ _ (by simp; omega), List.getD_eq_getElem _ _ hp2,
    List.getElem_append_left (by simp; omega),
    List.getElem_append_right (by simp; omega)]
  simp only [List.getElem_drop, List.length_take]
  congr 1
  omega

theorem remove_get {s : FV α} (h : Inv s) {i : Nat} (hi : i < s.ends.length) :
    (∀ j, j < i → getRecord (removeOp s i) j = getRecord s j) ∧
    (∀ j, i ≤ j → j + 1 < s.ends.length →
      getRecord (removeOp s i) j = getRecord s (j+1)) := by
  have hse := inv_start_le_end h hi
  have hed : endOf s i ≤ s.data_len := inv_end_le h hi
  have hcap := h.2.2.2
  have hEl : (removeOp s i).ends.length = s.ends.length - 1 := removeOp_ends_length s hi
  have hdata : (removeOp s i).data = copyWithin s.data (endOf s i) (startOf s i) := rfl
  have hLen : (removeOp s i).data.length = s.data.length := by
    rw [hdata]
    exact copyWithin_length hse (by omega)
  constructor
  · intro j hj
    rw [getRecord_some (by omega : j < (removeOp s i).ends.length),
      getRecord_some (by omega : j < s.ends.length)]
    have hstartEq : startOf (removeOp s i) j = startOf s j := by
      by_cases hj0 : j = 0
      · rw [hj0]
        rfl
      · rw [startOf_pos (by omega), startOf_pos (by omega)]
        exact removeOp_ends_getD_lt s hi (by omega)
    have hendEq : endOf (removeOp s i) j = endOf s j := removeOp_ends_getD_lt s hi hj
    rw [hstartEq, hendEq]
    congr 1
    apply sliceRange_congr
    · rw [hdata]
      exact copyWithin_take (by omega)
    · show s.ends.getD j 0 ≤ startOf s i
      rw [startOf_pos (by omega)]
      exact inv_mono h (by omega) (by omega)
  · intro j hij hj1
    rw [getRecord_some (by omega : j < (removeOp s i).ends.length),
      getRecord_some (by omega : j + 1 < s.ends.length)]
    have ha_ge : endOf s i ≤ s.ends.getD j 0 := inv_mono h hij (by omega)
    have hb_ge : s.ends.getD j 0 ≤ s.ends.getD (j+1) 0 := inv_mono h (by omega) (by omega)
    have hb_dl : s.ends.getD (j+1) 0 ≤ s.data_len := inv_end_le h (by omega)
    have hb' : endOf (removeOp s i) j =
        s.ends.getD (j+1) 0 - (endOf s i - startOf s i) :=
      removeOp_ends_getD_ge s hij (by omega)
    have ha' : startOf (removeOp s i) j =
        s.ends.getD j 0 - (endOf s i - startOf s i) := by
      by_cases hj0 : j = 0
      · have hi0 : i = 0 := by omega
        have e1 : startOf (removeOp s i) j = 0 := by rw [hj0]; rfl
        have e2 : startOf s i = 0 := by rw [hi0]; rfl
        have e3 : endOf s i = s.ends.getD j 0 := by rw [hi0, hj0]; rfl
        rw [e1]
        omega
      · rw [startOf_pos (by omega)]
        rcases Nat.lt_or_ge (j-1) i with hlt | hge
        · have hji : j = i := by omega
          rw [removeOp_ends_getD_lt s hi hlt]
          have e4 : s.ends.getD (j-1) 0 = startOf s i := by
            rw [startOf_pos (i := i) (by omega), hji]
          have e5 : endOf s i = s.ends.getD j 0 := by rw [hji]; rfl
          omega
        · rw [removeOp_ends_getD_ge s hge (by omega),
            show j - 1 + 1 = j by omega]
    have hsj1 : startOf s (j+1) = s.ends.getD j 0 := by
      rw [startOf_pos (by omega), show j + 1 - 1 = j from rfl]
    have hej1 : endOf s (j+1) = s.ends.getD (j+1) 0 := rfl
    rw [ha', hb', hsj1, hej1]
    congr 1
    apply List.ext_getElem
    · rw [sliceRange_length (by omega) (by omega),
        sliceRange_length (by omega) (by omega)]
      omega
    · intro k h1 h2
      simp only [sliceRange, List.getElem_take, List.getElem_drop]
      rw [sliceRange_length (by omega) (by omega)] at h1
      have hk : k < s.ends.getD (j+1) 0 - s.ends.getD j 0 := by omega
      have hr_le : endOf s i - startOf s i ≤ s.ends.getD j 0 := by omega
      have hCW : (copyWithin s.data (endOf s i) (startOf s i)).length = s.data.length :=
        copyWithin_length hse (by omega)
      have hgoal := @copyWithin_getD_shift α _ s.data (endOf s i) (startOf s i)
        (s.ends.getD j 0 - (endOf s i - startOf s i) + k)
        hse (by omega) (by omega) (by omega)
      rw [show s.ends.getD j 0 - (endOf s i - startOf s i) + k + (endOf s i - startOf s i) =
          s.ends.getD j 0 + k from by omega] at hgoal
      rw [← @List.getD_eq_getElem α (removeOp s i).data default
          (s.ends.getD j 0 - (endOf s i - startOf s i) + k) (by omega),
        ← @List.getD_eq_getElem α s.data default (s.ends.getD j 0 + k) (by omega),
        hdata]
      exact hgoal

/-! ## `sliceRange` elementwise, `dropLast` helpers -/

theorem sliceRange_getD {l : List α} {a b k : Nat} (hk : k < b - a) (hb : b ≤ l.length) :
    (sliceRange l a b).getD k default = l.getD (a + k) default := by
  rw [List.getD_eq_getElem _ _ (by rw [sliceRange_length (by omega) hb]; omega),
    List.getD_eq_getElem _ _ (by omega)]
  simp only [sliceRange, List.getElem_take, List.getElem_drop]

theorem dropLast_getD (l : List Nat) {j : Nat} (hj : j < l.length - 1) :
    l.dropLast.getD j 0 = l.getD j 0 := by
  rw [List.getD_eq_getElem _ _ (by simp; omega), List.getD_eq_getElem _ _ (by omega),
    List.getElem_dropLast]

/-! ## Facts about the spec-modelled `pop` -/

theorem pop_of_empty {s : FV α} (h : s.ends = []) : pop s = (none, s) := by
  unfold pop
  rw [if_pos (by rw [h]; rfl)]

theorem pop_of_nonempty {s : FV α} (hInv : Inv s) (h : s.ends ≠ []) :
    (pop s).1 = getRecord s (len s - 1) ∧
    (pop s).2.ends = s.ends.dropLast ∧
    (pop s).2.data_len = startOf s (len s - 1) ∧
    Inv (pop s).2 := by
  have hn : s.ends.length ≠ 0 := fun hc => h (List.eq_nil_of_length_eq_zero hc)
  have hlt : s.ends.length - 1 < s.ends.length := by omega
  have hse := inv_start_le_end hInv hlt
  have hed := inv_end_le hInv hlt
  have hee : endOf s (s.ends.length - 1) = s.ends.getD (s.ends.length - 1) 0 := rfl
  have hcap := hInv.2.2.2
  have hpop : pop s = (some (sliceRange s.data (startOf s (s.ends.length - 1))
        (endOf s (s.ends.length - 1))),
      ⟨setRange s.data (startOf s (s.ends.length - 1))
        (List.replicate (endOf s (s.ends.length - 1) - startOf s (s.ends.length - 1)) default),
       startOf s (s.ends.length - 1), s.ends.dropLast⟩) := by
    unfold pop
    rw [if_neg hn]
  rw [hpop]
  refine ⟨?_, rfl, rfl, ?_, ?_, ?_, ?_⟩
  · rw [getRecord_some (by show s.ends.length - 1 < s.ends.length; omega :
      len s - 1 < s.ends.length)]
    rfl
  · -- Chain' on dropLast
    rw [List.chain'_iff_pairwise]
    exact List.Pairwise.sublist (List.dropLast_sublist s.ends)
      (List.chain'_iff_pairwise.mp hInv.1)
  · -- last of dropLast = new data_len
    rw [getLastD_eq_getD]
    simp only [List.length_dropLast]
    rcases Nat.lt_or_ge s.ends.length 2 with h2 | h2
    · have hone : s.ends.length = 1 := by omega
      have hnil : s.ends.dropLast = [] := by
        rw [List.dropLast_eq_take, hone]
        rfl
      rw [hnil]
      unfold startOf
      rw [if_pos (by omega)]
      rfl
    · rw [dropLast_getD s.ends (by omega), startOf_pos (by omega)]
  · -- membership
    intro e he
    rw [List.mem_iff_getElem] at he
    obtain ⟨j, hj, hje⟩ := he
    simp only [List.length_dropLast] at hj
    rw [← hje, ← List.getD_eq_getElem _ 0 (by simp; omega), dropLast_getD s.ends hj,
      startOf_pos (by omega)]
    exact inv_mono hInv (by omega) (by omega)
  · -- capacity
    have hL : (setRange s.data (startOf s (s.ends.length - 1))
        (List.replicate (endOf s (s.ends.length - 1) - startOf s (s.ends.length - 1))
          default)).length = s.data.length := by
      rw [setRange_length (by simp; omega)]
    show startOf s (s.ends.length - 1) ≤ (setRange s.data (startOf s (s.ends.length - 1))
      (List.replicate (endOf s (s.ends.length - 1) - startOf s (s.ends.length - 1))
        default)).length
    rw [hL]
    omega

/-! ## Claim theorems -/

/-- **C1** (code-bug evidence). The claim says every buffer unit at a position
≥ `fill_length` holds the default value after every operation, so that the
slice a later `allocate` hands out is default-initialized — and the code's own
comments (lib.rs:211-214, 236) assert the same. The code violates it: after
`push` of the single unit `97` followed by `clear`, the reachable state has
`fill_length = 0` while the buffer still holds `97` at position `0 ≥ 0`, and
the slice a subsequent `allocate(1)` would hand out (the buffer after
`reserve(1)`, at position `0`) holds `97`, not the default `0`. -/
theorem c1_stale_capacity_after_clear :
    run [Op.push [WriteOp.alloc [97]], Op.clear] = some (⟨[97], 0, []⟩ : FV Nat) ∧
    (⟨[97], 0, []⟩ : FV Nat).data_len = 0 ∧
    (⟨[97], 0, []⟩ : FV Nat).data.getD 0 (default : Nat) = 97 ∧
    (97 : Nat) ≠ default ∧
    (reserve (toStore (⟨[97], 0, []⟩ : FV Nat)) 1).data.getD 0 (default : Nat) = 97 := by
  decide

/-- **C2**: for every sequence of `push`/`remove`/`clear` operations from the
empty container, the resulting state has a non-decreasing offset table whose
last entry equals the fill length when non-empty, every record's half-open
range lies inside the filled region, `len()` is the number of offsets, and
`data_len()` is the telescoping sum of the record lengths. -/
theorem c2_sequence_invariants (ops : List (Op α)) (s : FV α) (h : run ops = some s) :
    s.ends.Chain' (· ≤ ·) ∧
    (s.ends ≠ [] → s.ends.getLastD 0 = s.data_len) ∧
    (∀ i, i < s.ends.length → startOf s i ≤ endOf s i ∧ endOf s i ≤ s.data_len) ∧
    len s = s.ends.length ∧
    (recordLens s).sum = s.data_len := by
  have hInv := run_Inv h
  refine ⟨hInv.1, fun _ => hInv.2.1, ?_, rfl, inv_sum hInv⟩
  intro i hi
  exact ⟨inv_start_le_end hInv hi, inv_end_le hInv hi⟩

theorem c2_sequence_invariants_witness :
    (⟨[9,0,7,0], 1, [1]⟩ : FV Nat).ends.Chain' (· ≤ ·) ∧
    ((⟨[9,0,7,0], 1, [1]⟩ : FV Nat).ends ≠ [] →
      (⟨[9,0,7,0], 1, [1]⟩ : FV Nat).ends.getLastD 0 =
        (⟨[9,0,7,0], 1, [1]⟩ : FV Nat).data_len) ∧
    (∀ i, i < (⟨[9,0,7,0], 1, [1]⟩ : FV Nat).ends.length →
      startOf (⟨[9,0,7,0], 1, [1]⟩ : FV Nat) i ≤ endOf (⟨[9,0,7,0], 1, [1]⟩ : FV Nat) i ∧
      endOf (⟨[9,0,7,0], 1, [1]⟩ : FV Nat) i ≤ (⟨[9,0,7,0], 1, [1]⟩ : FV Nat).data_len) ∧
    len (⟨[9,0,7,0], 1, [1]⟩ : FV Nat) = (⟨[9,0,7,0], 1, [1]⟩ : FV Nat).ends.length ∧
    (recordLens (⟨[9,0,7,0], 1, [1]⟩ : FV Nat)).sum =
      (⟨[9,0,7,0], 1, [1]⟩ : FV Nat).data_len :=
  c2_sequence_invariants
    [Op.push [WriteOp.alloc [5,6]], Op.push [WriteOp.ext false [7]], Op.remove 0,
     Op.push [WriteOp.alloc []], Op.clear, Op.push [WriteOp.alloc [9]]]
    (⟨[9,0,7,0], 1, [1]⟩ : FV Nat) (by decide)

/-- **C3** (counterexample). The claim says a growing `reserve(n)` makes the
capacity `max(fill_length + n, 2 * old_capacity)`. At the reachable state with
buffer `[5,6,3,4]` (capacity 4) and fill length 2 — reached by pushes of one,
one and two units, a `clear`, and a push of two units — `reserve 10` grows the
capacity to `14 = max(old_capacity + 10, 2 * old_capacity)`, not to
`12 = max(fill_length + 10, 2 * old_capacity)`: the code (lib.rs:230) uses
`requested + data.len()`, adding the request to the *capacity*, not to the
fill length. -/
theorem c3_reserve_growth_counterexample :
    run [Op.push [WriteOp.alloc [1]], Op.push [WriteOp.alloc [2]],
         Op.push [WriteOp.alloc [3,4]], Op.clear, Op.push [WriteOp.alloc [5,6]]] =
      some (⟨[5,6,3,4], 2, [2]⟩ : FV Nat) ∧
    (⟨[5,6,3,4], 2, [2]⟩ : FV Nat).data.length <
      (⟨[5,6,3,4], 2, [2]⟩ : FV Nat).data_len + 10 ∧
    (reserve (toStore (⟨[5,6,3,4], 2, [2]⟩ : FV Nat)) 10).data.length = 14 ∧
    max ((⟨[5,6,3,4], 2, [2]⟩ : FV Nat).data_len + 10)
      (2 * (⟨[5,6,3,4], 2, [2]⟩ : FV Nat).data.length) = 12 ∧
    (14 : Nat) ≠ 12 := by
  decide

/-- **C3** (amended): when `capacity - fill_length < n`, `reserve n` grows the
capacity to `max(old_capacity + n, 2 * old_capacity)` (the code adds the
request to the old capacity, lib.rs:230) and every newly added unit of
capacity holds the default value; otherwise the buffer is unchanged. -/
theorem c3_reserve_growth_amended (s : Store α) (n : Nat) :
    (s.data.length < s.data_len + n →
      (reserve s n).data.length = max (s.data.length + n) (2 * s.data.length) ∧
      ∀ i, s.data.length ≤ i → i < (reserve s n).data.length →
        (reserve s n).data.getD i default = default) ∧
    (s.data_len + n ≤ s.data.length → reserve s n = s) := by
  constructor
  · intro hgrow
    have hres : reserve s n = allocate_slow_path s n := by
      unfold reserve
      rw [if_pos hgrow]
    rw [hres]
    have hxlen : s.data.length ≤ max (n + s.data.length) (2 * s.data.length) := by omega
    have hE : (allocate_slow_path s n).data =
        s.data ++ List.replicate
          (max (n + s.data.length) (2 * s.data.length) - s.data.length) default := by
      show resizeWith _ _ = _
      exact resizeWith_eq_append hxlen
    constructor
    · rw [hE]
      simp only [List.length_append, List.length_replicate]
      omega
    · intro i hiL hilt
      rw [hE] at hilt ⊢
      simp only [List.length_append, List.length_replicate] at hilt
      rw [List.getD_eq_getElem _ _ (by simp; omega),
        List.getElem_append_right (by omega)]
      exact List.getElem_replicate _ _
  · intro hle
    unfold reserve
    rw [if_neg (by omega)]

theorem c3_reserve_growth_amended_witness :
    (((reserve (⟨[5,6,3,4], 2⟩ : Store Nat) 10).data.length =
        max ((⟨[5,6,3,4], 2⟩ : Store Nat).data.length + 10)
          (2 * (⟨[5,6,3,4], 2⟩ : Store Nat).data.length) ∧
      ∀ i, (⟨[5,6,3,4], 2⟩ : Store Nat).data.length ≤ i →
        i < (reserve (⟨[5,6,3,4], 2⟩ : Store Nat) 10).data.length →
        (reserve (⟨[5,6,3,4], 2⟩ : Store Nat) 10).data.getD i default = default) ∧
    reserve (⟨[5,6,3,4], 2⟩ : Store Nat) 2 = (⟨[5,6,3,4], 2⟩ : Store Nat)) :=
  ⟨(c3_reserve_growth_amended (⟨[5,6,3,4], 2⟩ : Store Nat) 10).1 (by decide),
   (c3_reserve_growth_amended (⟨[5,6,3,4], 2⟩ : Store Nat) 2).2 (by decide)⟩

/-- **C4**: `extend` with an exact size hint is exactly one `allocate` plus
element copies; in every case the fill length advances by exactly the number
of elements the iterator yields and each yielded element lands at its
consecutive buffer position; and when the non-exact path overflows the
existing tail capacity, the grow loop re-pads everything beyond the new fill
length with the default value. -/
theorem c4_extend_contract (s : Store α) (e : Bool) (xs : List α)
    (h : s.data_len ≤ s.data.length) :
    (e = true → extend s e xs = allocWrite s xs) ∧
    (extend s e xs).data_len = s.data_len + xs.length ∧
    (∀ k, k < xs.length →
      (extend s e xs).data.getD (s.data_len + k) default = xs.getD k default) ∧
    (e = false → s.data.length < s.data_len + xs.length →
      (extend s e xs).data.drop (extend s e xs).data_len =
        List.replicate
          ((extend s e xs).data.length - (extend s e xs).data_len) default) := by
  have hf := extend_facts s e xs h
  refine ⟨?_, hf.1, ?_, ?_⟩
  · intro he
    rw [he]
    rfl
  · intro k hk
    have hb : s.data_len + xs.length ≤ (extend s e xs).data.length := by
      rw [← hf.1]
      exact hf.2.1
    have h2 := @sliceRange_getD α _ (extend s e xs).data s.data_len
      (s.data_len + xs.length) k (by omega) hb
    rw [hf.2.2.2] at h2
    exact h2.symm
  · intro he hov
    rw [he]
    have hx : extend s false xs = extendNonExact s xs := rfl
    rw [hx]
    exact extend_grow_padding s xs h hov

theorem c4_extend_contract_witness :
    ((false = true → extend (⟨[0,0,0], 1⟩ : Store Nat) false [7,8,9] =
        allocWrite (⟨[0,0,0], 1⟩ : Store Nat) [7,8,9]) ∧
     (extend (⟨[0,0,0], 1⟩ : Store Nat) false [7,8,9]).data_len =
       (⟨[0,0,0], 1⟩ : Store Nat).data_len + [7,8,9].length ∧
     (∀ k, k < [7,8,9].length →
       (extend (⟨[0,0,0], 1⟩ : Store Nat) false [7,8,9]).data.getD
         ((⟨[0,0,0], 1⟩ : Store Nat).data_len + k) default = [7,8,9].getD k default) ∧
     (false = false → (⟨[0,0,0], 1⟩ : Store Nat).data.length <
         (⟨[0,0,0], 1⟩ : Store Nat).data_len + [7,8,9].length →
       (extend (⟨[0,0,0], 1⟩ : Store Nat) false [7,8,9]).data.drop
           (extend (⟨[0,0,0], 1⟩ : Store Nat) false [7,8,9]).data_len =
         List.replicate ((extend (⟨[0,0,0], 1⟩ : Store Nat) false [7,8,9]).data.length -
           (extend (⟨[0,0,0], 1⟩ : Store Nat) false [7,8,9]).data_len) default)) :=
  c4_extend_contract (⟨[0,0,0], 1⟩ : Store Nat) false [7,8,9] (by decide)

/-- **C5**: pushing a value and reading the last record back yields exactly
the value's flattened form (the round-trip law, with the built-in byte-slice
`Erect` being the identity), and `n` pushes into a fresh container make
`iter()` yield exactly the pushed records in order. -/
theorem c5_roundtrip_and_order :
    (∀ (s : FV α) (xs : List α), Inv s →
      getRecord (pushRecord s xs) (len (pushRecord s xs) - 1) = some xs) ∧
    (∀ rs : List (List α), iterRecords (List.foldl pushRecord empty rs) = rs) := by
  constructor
  · intro s xs hInv
    have hl : len (pushRecord s xs) = s.ends.length + 1 := by
      show (push s [WriteOp.alloc xs]).ends.length = _
      rw [(push_facts hInv [WriteOp.alloc xs]).2.1]
      simp
    rw [hl, show s.ends.length + 1 - 1 = s.ends.length by omega]
    exact pushRecord_get_last hInv xs
  · intro rs
    have h2 := foldl_pushRecord_iter rs empty inv_empty
    rw [h2.1, iterRecords_empty, List.nil_append]

theorem c5_roundtrip_and_order_witness :
    getRecord (pushRecord (empty : FV Nat) [5])
      (len (pushRecord (empty : FV Nat) [5]) - 1) = some [5] ∧
    iterRecords (List.foldl pushRecord (empty : FV Nat) [[1],[2,3],[]]) =
      [[1],[2,3],[]] :=
  ⟨c5_roundtrip_and_order.1 (empty : FV Nat) [5] (by decide),
   c5_roundtrip_and_order.2 [[1],[2,3],[]]⟩

/-- **C6**: `remove(index)` deletes the offset entry at `index`, decrements
every subsequent offset by the removed length, reduces `len` by one and
`data_len` by the removed length, leaves every record before `index`
untouched, and shifts every later record down by one position (so with
records `[A,B,C]`, `remove 1` leaves `get 0 = A` and `get 1 = C`). -/
theorem c6_remove_shifts (s : FV α) (i : Nat) (h : Inv s) (hi : i < s.ends.length) :
    len (removeOp s i) = len s - 1 ∧
    dataLen (removeOp s i) = dataLen s - (endOf s i - startOf s i) ∧
    (removeOp s i).ends = s.ends.take i ++
      (s.ends.drop (i+1)).map (fun e => e - (endOf s i - startOf s i)) ∧
    (∀ j, j < i → getRecord (removeOp s i) j = getRecord s j) ∧
    (∀ j, i ≤ j → j + 1 < s.ends.length →
      getRecord (removeOp s i) j = getRecord s (j+1)) :=
  ⟨removeOp_ends_length s hi, rfl, removeOp_ends s hi,
   (remove_get h hi).1, (remove_get h hi).2⟩

theorem c6_remove_shifts_witness :
    getRecord (removeOp (⟨[1,2,2,3,0,0], 4, [1,3,4]⟩ : FV Nat) 1) 0 =
      getRecord (⟨[1,2,2,3,0,0], 4, [1,3,4]⟩ : FV Nat) 0 ∧
    getRecord (removeOp (⟨[1,2,2,3,0,0], 4, [1,3,4]⟩ : FV Nat) 1) 1 =
      getRecord (⟨[1,2,2,3,0,0], 4, [1,3,4]⟩ : FV Nat) 2 ∧
    len (removeOp (⟨[1,2,2,3,0,0], 4, [1,3,4]⟩ : FV Nat) 1) = 2 ∧
    dataLen (removeOp (⟨[1,2,2,3,0,0], 4, [1,3,4]⟩ : FV Nat) 1) = 2 ∧
    getRecord (removeOp (⟨[1,2,2,3,0,0], 4, [1,3,4]⟩ : FV Nat) 1) 0 = some [1] ∧
    getRecord (removeOp (⟨[1,2,2,3,0,0], 4, [1,3,4]⟩ : FV Nat) 1) 1 = some [3] := by
  have h := c6_remove_shifts (⟨[1,2,2,3,0,0], 4, [1,3,4]⟩ : FV Nat) 1
    (by decide) (by decide)
  refine ⟨h.2.2.2.1 0 (by decide), h.2.2.2.2 1 (by decide) (by decide), h.1, ?_, ?_, ?_⟩
  · have h2 := h.2.1
    rw [h2]
    decide
  · rw [h.2.2.2.1 0 (by decide)]
    decide
  · rw [h.2.2.2.2 1 (by decide) (by decide)]
    decide

/-- **C7** (modelled from the spec; `pop` is absent from src/src/lib.rs): on a
non-empty container, `pop` returns the materialized last record, removes the
last offset, and truncates the fill to the new tail (keeping the invariant);
on an empty container it returns `None` and leaves the state unchanged. -/
theorem c7_pop_contract (s : FV α) (h : Inv s) :
    (s.ends = [] → pop s = (none, s)) ∧
    (s.ends ≠ [] →
      (pop s).1 = getRecord s (len s - 1) ∧
      (pop s).2.ends = s.ends.dropLast ∧
      (pop s).2.data_len = startOf s (len s - 1) ∧
      Inv (pop s).2) :=
  ⟨fun he => pop_of_empty he, fun hne => pop_of_nonempty h hne⟩

theorem c7_pop_contract_witness :
    pop (empty : FV Nat) = (none, empty) ∧
    ((pop (⟨[1,2], 2, [1,2]⟩ : FV Nat)).1 =
       getRecord (⟨[1,2], 2, [1,2]⟩ : FV Nat) (len (⟨[1,2], 2, [1,2]⟩ : FV Nat) - 1) ∧
     (pop (⟨[1,2], 2, [1,2]⟩ : FV Nat)).2.ends =
       (⟨[1,2], 2, [1,2]⟩ : FV Nat).ends.dropLast ∧
     (pop (⟨[1,2], 2, [1,2]⟩ : FV Nat)).2.data_len =
       startOf (⟨[1,2], 2, [1,2]⟩ : FV Nat) (len (⟨[1,2], 2, [1,2]⟩ : FV Nat) - 1) ∧
     Inv (pop (⟨[1,2], 2, [1,2]⟩ : FV Nat)).2) :=
  ⟨(c7_pop_contract (empty : FV Nat) (by decide)).1 rfl,
   (c7_pop_contract (⟨[1,2], 2, [1,2]⟩ : FV Nat) (by decide)).2 (by decide)⟩

/-- **C8**: `get(index)` returns `None` exactly when `index ≥ len()`; in range
it returns `Some` of the value erected from the record's byte range, whose
bounds are valid (`start ≤ end ≤ data_len ≤ capacity`, so the Rust slicing
cannot panic). `get` takes `&self` and is modelled as a pure function, so the
container is unchanged by the call. -/
theorem c8_get_contract (s : FV α) (i : Nat) (h : Inv s) :
    (getRecord s i = none ↔ len s ≤ i) ∧
    (i < len s →
      getRecord s i = some (sliceRange s.data (startOf s i) (endOf s i)) ∧
      startOf s i ≤ endOf s i ∧ endOf s i ≤ s.data_len ∧
      s.data_len ≤ s.data.length) :=
  ⟨getRecord_none_iff s i,
   fun hi => ⟨getRecord_some hi, inv_start_le_end h hi, inv_end_le h hi, h.2.2.2⟩⟩

theorem c8_get_contract_witness :
    ((getRecord (⟨[1,2], 2, [1,2]⟩ : FV Nat) 1 = none ↔
        len (⟨[1,2], 2, [1,2]⟩ : FV Nat) ≤ 1) ∧
     (1 < len (⟨[1,2], 2, [1,2]⟩ : FV Nat) →
       getRecord (⟨[1,2], 2, [1,2]⟩ : FV Nat) 1 =
         some (sliceRange (⟨[1,2], 2, [1,2]⟩ : FV Nat).data
           (startOf (⟨[1,2], 2, [1,2]⟩ : FV Nat) 1) (endOf (⟨[1,2], 2, [1,2]⟩ : FV Nat) 1)) ∧
       startOf (⟨[1,2], 2, [1,2]⟩ : FV Nat) 1 ≤ endOf (⟨[1,2], 2, [1,2]⟩ : FV Nat) 1 ∧
       endOf (⟨[1,2], 2, [1,2]⟩ : FV Nat) 1 ≤ (⟨[1,2], 2, [1,2]⟩ : FV Nat).data_len ∧
       (⟨[1,2], 2, [1,2]⟩ : FV Nat).data_len ≤ (⟨[1,2], 2, [1,2]⟩ : FV Nat).data.length)) :=
  c8_get_contract (⟨[1,2], 2, [1,2]⟩ : FV Nat) 1 (by decide)

/-- **C9**: `push` panics at the `IndexTy` conversion exactly when the new
fill length after flattening does not fit in `IndexTy`; when it fits, the
conversion succeeds, `push` behaves as the unchecked model, and the stored
offset (the total stored byte length) is bounded by `IndexTy`'s maximum. -/
theorem c9_push_index_bound (idxMax : Nat) (s : FV α) (ops : List (WriteOp α)) :
    (pushChecked idxMax s ops = none ↔
      idxMax < (runOps (toStore s) ops).data_len) ∧
    ((runOps (toStore s) ops).data_len ≤ idxMax →
      pushChecked idxMax s ops = some (push s ops)) ∧
    (∀ t : FV α, pushChecked idxMax s ops = some t → t.data_len ≤ idxMax) := by
  by_cases hle : (runOps (toStore s) ops).data_len ≤ idxMax
  · have hsome : pushChecked idxMax s ops = some (push s ops) := by
      simp only [pushChecked, tryIntoIdx, if_pos hle]
      rfl
    refine ⟨⟨fun hnone => ?_, fun hlt => by omega⟩, fun _ => hsome, fun t ht => ?_⟩
    · rw [hsome] at hnone
      exact absurd hnone (by simp)
    · rw [hsome] at ht
      injection ht with ht
      rw [← ht]
      exact hle
  · have hnone : pushChecked idxMax s ops = none := by
      simp only [pushChecked, tryIntoIdx, if_neg hle]
    refine ⟨⟨fun _ => by omega, fun _ => hnone⟩, fun hc => absurd hc hle, fun t ht => ?_⟩
    rw [hnone] at ht
    exact absurd ht (by simp)

theorem c9_push_index_bound_witness :
    ((pushChecked 3 (empty : FV Nat) [WriteOp.alloc [7,8]] = none ↔
        3 < (runOps (toStore (empty : FV Nat)) [WriteOp.alloc [7,8]]).data_len) ∧
     ((runOps (toStore (empty : FV Nat)) [WriteOp.alloc [7,8]]).data_len ≤ 3 →
       pushChecked 3 (empty : FV Nat) [WriteOp.alloc [7,8]] =
         some (push (empty : FV Nat) [WriteOp.alloc [7,8]])) ∧
     (∀ t : FV Nat, pushChecked 3 (empty : FV Nat) [WriteOp.alloc [7,8]] = some t →
       t.data_len ≤ 3)) ∧
    (pushChecked 1 (empty : FV Nat) [WriteOp.alloc [7,8]] = none ↔
      1 < (runOps (toStore (empty : FV Nat)) [WriteOp.alloc [7,8]]).data_len) :=
  ⟨c9_push_index_bound 3 (empty : FV Nat) [WriteOp.alloc [7,8]],
   (c9_push_index_bound 1 (empty : FV Nat) [WriteOp.alloc [7,8]]).1⟩

/-- **C10**: pushing a record of zero units (e.g. the empty string) increments
`len` by one, leaves `data_len` unchanged, and `get` at the new index returns
`Some` of the empty value — in particular on a fresh container whose backing
buffer has zero capacity. -/
theorem c10_zero_length_push (s : FV α) (h : Inv s) :
    len (pushRecord s []) = len s + 1 ∧
    (pushRecord s []).data_len = s.data_len ∧
    getRecord (pushRecord s []) (len s) = some [] := by
  refine ⟨?_, ?_, pushRecord_get_last h []⟩
  · show (push s [WriteOp.alloc []]).ends.length = _
    rw [(push_facts h [WriteOp.alloc []]).2.1]
    simp [len]
  · rw [pushRecord_data_len h]
    simp

theorem c10_zero_length_push_witness :
    dataCapacity (empty : FV Nat) = 0 ∧
    (len (pushRecord (empty : FV Nat) []) = len (empty : FV Nat) + 1 ∧
     (pushRecord (empty : FV Nat) []).data_len = (empty : FV Nat).data_len ∧
     getRecord (pushRecord (empty : FV Nat) []) (len (empty : FV Nat)) = some []) :=
  ⟨rfl, c10_zero_length_push (empty : FV Nat) (by decide)⟩

end FlatVecModel
